import Mathlib

/-!
Verification of the RLP codec and Merkle Patricia Trie node encoding of
`execution-specs-rs` (files `src/ethereum/rlp.rs` and
`src/ethereum/frontier/trie.rs`), against the repository's natural-language
specification.

Byte strings are modelled as `List Nat` (each element a byte value), machine
integers as `Nat` with explicit truncation where the code truncates.
`Bytes = Box<[u8]>` becomes `List Nat`; `Uint` (a `BigUint`) becomes `Nat`.
-/

set_option maxRecDepth 4000

/-! ## Keccak-256

`keccak256` lives in `frontier/fork_types.rs`, which is not part of the
provided sources; the spec fixes it as "the 32-byte cryptographic digest" /
"fixed 256-bit digest function used throughout" (keccak256). It is modelled
here as standard Keccak-256 (rate 1088, capacity 512, multi-rate padding with
domain byte 0x01), the function Ethereum uses.
-/

/-- Rotate a 64-bit lane left by `r` bits. -/
def rotl64 (n r : Nat) : Nat :=
  (Nat.lor (n <<< r) (n >>> (64 - r))) % 2 ^ 64

/-- One step of the degree-8 LFSR of FIPS 202 Algorithm 5 (`rc(t)`). -/
def lfsrStep (r : Nat) : Nat :=
  if 128 ≤ r then Nat.xor (r * 2 % 256) 0x71 else r * 2

/-- The first `n` output bits of the FIPS 202 LFSR started at state `r`. -/
def lfsrBits : Nat → Nat → List Nat
  | 0, _ => []
  | n + 1, r => r % 2 :: lfsrBits n (lfsrStep r)

/-- Assemble one 64-bit round constant from seven LFSR bits: bit `j` of the
schedule lands at lane position `2 ^ j - 1`. -/
def rcFromBits : List Nat → Nat
  | [b0, b1, b2, b3, b4, b5, b6] =>
      b0 + b1 * 2 ^ 1 + b2 * 2 ^ 3 + b3 * 2 ^ 7 + b4 * 2 ^ 15 + b5 * 2 ^ 31 + b6 * 2 ^ 63
  | _ => 0

/-- Keccak round constants for the 24 rounds of Keccak-f[1600], derived from
the LFSR exactly as FIPS 202 prescribes. -/
def keccakRC : List Nat :=
  let bits := lfsrBits 168 1
  (List.range 24).map (fun i => rcFromBits ((bits.drop (7 * i)).take 7))

/-- The rho-offset walk of FIPS 202: starting from lane (1, 0), step `t`
assigns rotation `(t + 1)(t + 2) / 2 mod 64` to the current lane (at flat
index `x + 5 * y`) and moves to `(y, 2x + 3y mod 5)`. -/
def rhoWalk : Nat → Nat → Nat → Nat → List (Nat × Nat)
  | 0, _, _, _ => []
  | steps + 1, x, y, t =>
      (x + 5 * y, (t + 1) * (t + 2) / 2 % 64) ::
        rhoWalk steps y ((2 * x + 3 * y) % 5) (t + 1)

/-- Lookup in an association list with a default. -/
def assocGetD (ps : List (Nat × Nat)) (i d : Nat) : Nat :=
  ((ps.find? (fun p => p.1 == i)).map Prod.snd).getD d

/-- Keccak rotation offsets, at flat lane index `x + 5 * y` (lane 0 rotates
by 0 and is not visited by the walk). -/
def keccakRho : List Nat :=
  (List.range 25).map (fun i => assocGetD (rhoWalk 24 1 0 0) i 0)

/-- Keccak theta step on a 25-lane state. -/
def keccakTheta (a : List Nat) : List Nat :=
  let c := (List.range 5).map (fun x =>
    Nat.xor (a.getD x 0) (Nat.xor (a.getD (x + 5) 0) (Nat.xor (a.getD (x + 10) 0)
      (Nat.xor (a.getD (x + 15) 0) (a.getD (x + 20) 0)))))
  let d := (List.range 5).map (fun x =>
    Nat.xor (c.getD ((x + 4) % 5) 0) (rotl64 (c.getD ((x + 1) % 5) 0) 1))
  (List.range 25).map (fun i => Nat.xor (a.getD i 0) (d.getD (i % 5) 0))

/-- Keccak rho and pi steps combined. -/
def keccakRhoPi (a : List Nat) : List Nat :=
  (List.range 25).map (fun j =>
    let xp := j % 5
    let yp := j / 5
    let src := (xp + 3 * yp) % 5 + 5 * xp
    rotl64 (a.getD src 0) (keccakRho.getD src 0))

/-- Keccak chi step. -/
def keccakChi (b : List Nat) : List Nat :=
  (List.range 25).map (fun j =>
    let x := j % 5
    let y := j / 5
    Nat.xor (b.getD j 0)
      (Nat.land (Nat.xor (b.getD ((x + 1) % 5 + 5 * y) 0) (2 ^ 64 - 1))
        (b.getD ((x + 2) % 5 + 5 * y) 0)))

/-- Keccak iota step: xor the round constant into lane 0. -/
def keccakIota (a : List Nat) (rc : Nat) : List Nat :=
  match a with
  | [] => []
  | a0 :: rest => Nat.xor a0 rc :: rest

/-- Run one Keccak round per remaining round constant. -/
def keccakRounds (rcs : List Nat) (st : List Nat) : List Nat :=
  match rcs with
  | [] => st
  | rc :: rest => keccakRounds rest (keccakIota (keccakChi (keccakRhoPi (keccakTheta st))) rc)

/-- The Keccak-f[1600] permutation. -/
def keccakF (st : List Nat) : List Nat := keccakRounds keccakRC st

/-- Interpret (up to 8) bytes as a little-endian 64-bit lane. -/
def loadLane : List Nat → Nat
  | [] => 0
  | b :: rest => b + 256 * loadLane rest

/-- Split a byte list into little-endian 64-bit lanes. -/
def toLanes : List Nat → List Nat
  | b0 :: b1 :: b2 :: b3 :: b4 :: b5 :: b6 :: b7 :: rest =>
      loadLane [b0, b1, b2, b3, b4, b5, b6, b7] :: toLanes rest
  | [] => []
  | l => [loadLane l]

/-- Xor a block's lanes into the leading lanes of the state. -/
def xorInto : List Nat → List Nat → List Nat
  | st, [] => st
  | [], _ => []
  | s :: st, b :: bs => Nat.xor s b :: xorInto st bs

/-- Absorb `blocks` rate-sized (136-byte) blocks of `msg` into the state. -/
def keccakAbsorb : Nat → List Nat → List Nat → List Nat
  | 0, st, _ => st
  | blocks + 1, st, msg =>
      keccakAbsorb blocks (keccakF (xorInto st (toLanes (msg.take 136)))) (msg.drop 136)

/-- Multi-rate padding (domain byte 0x01) to a multiple of the 136-byte rate. -/
def keccakPad (msg : List Nat) : List Nat :=
  let padlen := 136 - msg.length % 136
  if padlen = 1 then msg ++ [0x81]
  else msg ++ 0x01 :: List.replicate (padlen - 2) 0 ++ [0x80]

/-- Store a 64-bit lane as 8 little-endian bytes. -/
def storeLane (n : Nat) : List Nat :=
  [n % 256, n / 256 % 256, n / 256 ^ 2 % 256, n / 256 ^ 3 % 256,
   n / 256 ^ 4 % 256, n / 256 ^ 5 % 256, n / 256 ^ 6 % 256, n / 256 ^ 7 % 256]

/-- Modelled from the spec: `keccak256` (from `fork_types.rs`, not under the
provided sources), the fixed 256-bit digest used throughout; standard
Keccak-256, returning 32 bytes. -/
def keccak256 (msg : List Nat) : List Nat :=
  let padded := keccakPad msg
  let st := keccakAbsorb (padded.length / 136) (List.replicate 25 0) padded
  storeLane (st.getD 0 0) ++ storeLane (st.getD 1 0) ++
    storeLane (st.getD 2 0) ++ storeLane (st.getD 3 0)

/-! ## Byte-string helpers of `base_types.rs` -/

/-- Modelled from the spec: `strip_leading_zeros` (from `base_types.rs`, not
under the provided sources) strips the leading zero bytes of a big-endian
byte string. -/
def strip_leading_zeros (l : List Nat) : List Nat := l.dropWhile (· == 0)

/-- Big-endian bytes of `n` at a fixed width `w` (low byte last), as Rust's
fixed-width `to_be_bytes` produces for `n < 256 ^ w`. -/
def to_be_bytes_fixed : Nat → Nat → List Nat
  | 0, _ => []
  | w + 1, n => to_be_bytes_fixed w (n / 256) ++ [n % 256]

/-- Rust `usize::to_be_bytes` on a 64-bit target: 8 big-endian bytes. -/
def usize_to_be_bytes (n : Nat) : List Nat := to_be_bytes_fixed 8 n

/-- Fuel-driven minimal big-endian encoding; `fuel ≥ n` suffices. -/
def natToBeAux : Nat → Nat → List Nat
  | 0, _ => []
  | fuel + 1, n => if n = 0 then [] else natToBeAux fuel (n / 256) ++ [n % 256]

/-- The big-endian minimal encoding of `n` (no leading zero byte; `0` gives
the empty byte string), as the spec's `be` function. -/
def natToBeMinimal (n : Nat) : List Nat := natToBeAux n n

/-! ## The RLP codec (`src/ethereum/rlp.rs`) -/

/-- Embedding of `encode_bytes` (rlp.rs lines 198-216): a single byte below
0x80 is returned unchanged; a byte string shorter than 56 gets the prefix
byte `0x80 + len`; otherwise the prefix byte `0xB7 + len(be)` followed by
`be = strip_leading_zeros(len.to_be_bytes())` and the bytes. -/
def encode_bytes (raw_bytes : List Nat) : List Nat :=
  let len_raw_data := raw_bytes.length
  if len_raw_data = 1 ∧ raw_bytes.headI < 128 then
    raw_bytes
  else if len_raw_data < 56 then
    (128 + len_raw_data) :: raw_bytes
  else
    let be_bytes := usize_to_be_bytes len_raw_data
    let len_raw_data_as_be := strip_leading_zeros be_bytes
    (183 + len_raw_data_as_be.length) :: (len_raw_data_as_be ++ raw_bytes)

/-- Embedding of `encode_sequence` (rlp.rs lines 242-259): applies the
byte-string length rule to already-joined item encodings, with base bytes
0xC0 (192) and 0xF7 (247). -/
def encode_sequence (joined_encodings : List Nat) : List Nat :=
  let len_joined_encodings := joined_encodings.length
  if len_joined_encodings < 56 then
    (192 + len_joined_encodings) :: joined_encodings
  else
    let be_bytes := usize_to_be_bytes len_joined_encodings
    let len_joined_encodings_as_be := strip_leading_zeros be_bytes
    (247 + len_joined_encodings_as_be.length) :: (len_joined_encodings_as_be ++ joined_encodings)

/-- An RLP-encodable value: a byte string or a sequence of encodable items
(the two shapes every supported scalar reduces to). -/
inductive RLPItem where
  | bytes : List Nat → RLPItem
  | list : List RLPItem → RLPItem

mutual

/-- Embedding of the `RLP` trait's `encode`: `impl RLP for Bytes` calls
`encode_bytes`; the sequence impls (`[T]`, `Vec<R>`, tuples; rlp.rs lines
114-154) concatenate the encodings of all items and apply `encode_sequence`. -/
def rlp_encode : RLPItem → List Nat
  | .bytes b => encode_bytes b
  | .list items => encode_sequence (joined_encodings items)

/-- The `joined_encodings` accumulator of the sequence impls: the
concatenation of the RLP encodings of the items. -/
def joined_encodings : List RLPItem → List Nat
  | [] => []
  | item :: rest => rlp_encode item ++ joined_encodings rest

end

/-- Embedding of `impl RLP for ()` (rlp.rs lines 134-138): the empty tuple
encodes as `encode_sequence` of no bytes. -/
def unit_encode : List Nat := encode_sequence []

/-- Modelled from the library behaviour the code relies on:
`num_bigint::BigUint::to_bytes_be` returns the minimal big-endian byte
representation, except that zero yields `[0]`. `Uint` is a `BigUint`
(`base_types.rs`, not under the provided sources). -/
def uint_to_bytes_be (n : Nat) : List Nat :=
  if n = 0 then [0] else natToBeMinimal n

/-- Embedding of `impl RLP for Uint` (rlp.rs lines 61-66):
`encode_bytes(strip_leading_zeros(self.to_bytes_be()))`. -/
def uint_encode (n : Nat) : List Nat :=
  encode_bytes (strip_leading_zeros (uint_to_bytes_be n))

/-! ## The trie (`src/ethereum/frontier/trie.rs`) -/

/-- Embedding of the constant `EMPTY_TRIE_ROOT` (trie.rs line 37):
hex `56e81f171bcc55a6ff8345e692c0f86e5b48e01b996cadc001622fb5e363b421`. -/
def EMPTY_TRIE_ROOT : List Nat :=
  [0x56, 0xe8, 0x1f, 0x17, 0x1b, 0xcc, 0x55, 0xa6, 0xff, 0x83, 0x45, 0xe6,
   0x92, 0xc0, 0xf8, 0x6e, 0x5b, 0x48, 0xe0, 0x1b, 0x99, 0x6c, 0xad, 0xc0,
   0x01, 0x62, 0x2f, 0xb5, 0xe3, 0x63, 0xb4, 0x21]

/-- The packing loop of `nibble_list_to_compact`: pushes `16 * x[i] + x[i+1]`
for consecutive pairs. -/
def pack_nibble_pairs : List Nat → List Nat
  | a :: b :: rest => (16 * a + b) :: pack_nibble_pairs rest
  | _ => []

/-- Embedding of `nibble_list_to_compact` (trie.rs lines 303-317). The even
branch pushes `16 * 2 * is_leaf` then the pairs; the odd branch pushes
`16 * 2 * is_leaf + 1 + x[0]` (exactly as the Rust parenthesizes it) then the
pairs of the remaining nibbles. -/
def nibble_list_to_compact (x : List Nat) ( is_leaf : Bool) : List Nat :=
  if x.length % 2 = 0 then
    (16 * 2 * (if is_leaf then 1 else 0)) :: pack_nibble_pairs x
  else
    (16 * 2 * (if is_leaf then 1 else 0) + 1 + x.headI) :: pack_nibble_pairs x.tail

/-- Embedding of `InternalNode<T>` (trie.rs lines 53-78), polymorphic over
the RLP-encodable value type `V` exactly as the Rust is generic over
`T : EncodeRlp`. `branchNode` keeps the `Vec<InternalNode<T>>` of subnodes
and the value. -/
inductive InternalNode (V : Type) where
  | leafNode : (rest_of_key : List Nat) → (value : V) → InternalNode V
  | extensionNode : (key_segment : List Nat) → (subnode : InternalNode V) → InternalNode V
  | branchNode : (subnodes : List (InternalNode V)) → (value : V) → InternalNode V
  | null : InternalNode V

mutual

/-- Embedding of `encode_internal_node` (trie.rs lines 97-125), with `encV`
standing for the value type's `.encode()`. Each case builds the joined
`encodes` buffer exactly as the Rust `extend_from_slice` calls do, applies
`encode_sequence`, and returns the result unchanged when it is shorter than
32 bytes, else its keccak256 digest. -/
def encode_internal_node {V : Type} (encV : V → List Nat) : InternalNode V → List Nat
  | .leafNode rest_of_key value =>
      let encodes := encode_bytes (nibble_list_to_compact rest_of_key true) ++ encV value
      let encoded := encode_sequence encodes
      if encoded.length < 32 then encoded else keccak256 encoded
  | .extensionNode key_segment subnode =>
      let encodes := encode_bytes (nibble_list_to_compact key_segment false) ++
        encode_bytes (encode_internal_node encV subnode)
      let encoded := encode_sequence encodes
      if encoded.length < 32 then encoded else keccak256 encoded
  | .branchNode subnodes value =>
      let encodes := branch_encodes encV subnodes ++ encV value
      let encoded := encode_sequence encodes
      if encoded.length < 32 then encoded else keccak256 encoded
  | .null =>
      let encodes := encode_bytes []
      let encoded := encode_sequence encodes
      if encoded.length < 32 then encoded else keccak256 encoded

/-- The branch-node loop of `encode_internal_node`: for each subnode, extend
with the RLP byte-string encoding of its (already thresholded) encoding. -/
def branch_encodes {V : Type} (encV : V → List Nat) : List (InternalNode V) → List Nat
  | [] => []
  | s :: rest => encode_bytes (encode_internal_node encV s) ++ branch_encodes encV rest

end

/-- The joined `encodes` buffer that `encode_internal_node` builds for a node
before applying `encode_sequence` (child references already thresholded). -/
def node_encodes {V : Type} (encV : V → List Nat) : InternalNode V → List Nat
  | .leafNode rest_of_key value =>
      encode_bytes (nibble_list_to_compact rest_of_key true) ++ encV value
  | .extensionNode key_segment subnode =>
      encode_bytes (nibble_list_to_compact key_segment false) ++
        encode_bytes (encode_internal_node encV subnode)
  | .branchNode subnodes value => branch_encodes encV subnodes ++ encV value
  | .null => encode_bytes []

/-- A node's RLP bytes: `encode_sequence` of its joined field encodings, the
value `encode_internal_node` computes before the 32-byte threshold test. -/
def node_rlp {V : Type} (encV : V → List Nat) (node : InternalNode V) : List Nat :=
  encode_sequence (node_encodes encV node)

/-! ## Spec-modelled parts of the trie

The functions below are commented out (or absent) in the provided sources —
only `nibble_list_to_compact`, `encode_internal_node` and the constants are
live Rust. They are modelled from the spec's words (sections 4.2, 4.4, 4.5).
-/

/-- Modelled from the spec: `to_nibbles` / `bytes_to_nibble_list` (commented
out at trie.rs lines 333-340): each byte expands to two 4-bit nibbles, high
nibble first. -/
def bytes_to_nibble_list : List Nat → List Nat
  | [] => []
  | b :: rest => b / 16 :: b % 16 :: bytes_to_nibble_list rest

/-- Modelled from the spec: `uncompact`, the inverse of
`compact(nibbles, is_leaf)` (spec section 4.2; no such function exists in the
sources). It reads the flag nibble from the high nibble of the first byte
(bit 1 = leaf flag, bit 0 = parity), takes the first data nibble from the low
nibble of the first byte when the parity bit says the count is odd, and
unpacks the remaining bytes two nibbles each, high first. -/
def uncompact (c : List Nat) : List Nat × Bool :=
  match c with
  | [] => ([], false)
  | b :: rest =>
      let flags := b / 16
      let nibbles := bytes_to_nibble_list rest
      (if flags % 2 = 1 then b % 16 :: nibbles else nibbles, flags / 2 % 2 == 1)

/-- Modelled from the spec: the node variant of section 3 — Empty, Leaf
(remaining key and value), Extension (shared key and child), Branch (children
and value slot). Values are the pre-encoded byte strings the value-encoding
function produces. -/
inductive SpecNode where
  | empty : SpecNode
  | leaf : List Nat → List Nat → SpecNode
  | extension : List Nat → SpecNode → SpecNode
  | branch : List SpecNode → List Nat → SpecNode

mutual

/-- Modelled from the spec: the node encoder of section 4.3, producing a
node's RLP bytes. Empty is the RLP of an empty byte string; Leaf and
Extension are RLP sequences of the compacted key and the value or child
reference; Branch is the RLP sequence of the 16 child references and the
value slot. A child reference is the child's RLP bytes spliced inline when
shorter than 32 bytes, else its 32-byte digest as a byte-string item. (Only
the Empty case is exercised by the theorems below.) -/
def spec_node_rlp : SpecNode → List Nat
  | .empty => encode_bytes []
  | .leaf k v =>
      encode_sequence (encode_bytes (nibble_list_to_compact k true) ++ encode_bytes v)
  | .extension k c =>
      encode_sequence (encode_bytes (nibble_list_to_compact k false) ++
        (if (spec_node_rlp c).length < 32 then spec_node_rlp c
         else encode_bytes (keccak256 (spec_node_rlp c))))
  | .branch subs v => encode_sequence (spec_branch_refs subs ++ encode_bytes v)

/-- Modelled from the spec: the child references of a Branch node, each
inlined raw below 32 bytes and replaced by its digest otherwise. -/
def spec_branch_refs : List SpecNode → List Nat
  | [] => []
  | c :: rest =>
      (if (spec_node_rlp c).length < 32 then spec_node_rlp c
       else encode_bytes (keccak256 (spec_node_rlp c))) ++ spec_branch_refs rest

end

/-- Modelled from the spec: `common_prefix_length` (commented out at trie.rs
lines 260-267): the length of the longest common prefix of two sequences. -/
def common_prefix_length : List Nat → List Nat → Nat
  | a :: as2, b :: bs => if a = b then 1 + common_prefix_length as2 bs else 0
  | _, _ => 0

/-- Modelled from the spec: `patricialize` (section 4.4; commented out at
trie.rs lines 429-466). Empty map gives Empty; a single entry gives a Leaf
with the key past `level`; otherwise the longest shared nibble prefix at
`level` gives an Extension, and a zero-length prefix buckets the entries into
16 branches by the nibble at `level`, a key ending exactly at `level`
supplying the branch value. `fuel` bounds the recursion depth; one more than
the longest key length suffices. -/
def patricialize : Nat → List (List Nat × List Nat) → Nat → SpecNode
  | _, [], _ => SpecNode.empty
  | _, [kv], level => SpecNode.leaf (kv.1.drop level) kv.2
  | 0, _, _ => SpecNode.empty
  | fuel + 1, obj, level =>
      let arbitrary_key := (obj.headI).1
      let substring := arbitrary_key.drop level
      let prefix_length := obj.foldl
        (fun acc kv => min acc (common_prefix_length substring (kv.1.drop level)))
        substring.length
      if 0 < prefix_length then
        SpecNode.extension (substring.take prefix_length)
          (patricialize fuel obj (level + prefix_length))
      else
        let value := ((obj.find? (fun kv => kv.1.length == level)).map Prod.snd).getD []
        SpecNode.branch
          ((List.range 16).map (fun i =>
            patricialize fuel (obj.filter (fun kv => kv.1.getD level 16 == i)) (level + 1)))
          value

/-- Modelled from the spec: `root(map, secured, …)` (section 4.5; commented
out at trie.rs lines 399-408). Entries whose value equals the trie's declared
default are removed; keys are hashed when `secured` and converted to nibble
lists; the map is patricialized from level 0; and the returned root is always
the 32-byte digest of the top node's RLP encoding. Values are the pre-encoded
byte strings the (externally injected) value encoder produced. -/
def root (data : List (List Nat × List Nat)) (secured : Bool) (dflt : List Nat) : List Nat :=
  let filtered := data.filter (fun kv => kv.2 != dflt)
  let prepared := filtered.map (fun kv =>
    (bytes_to_nibble_list (if secured then keccak256 kv.1 else kv.1), kv.2))
  let fuel := 1 + prepared.foldl (fun acc kv => max acc kv.1.length) 0
  keccak256 (spec_node_rlp (patricialize fuel prepared 0))

/-! ## Helper lemmas -/

theorem keccak256_length (msg : List Nat) : (keccak256 msg).length = 32 := by
  simp [keccak256, storeLane]

theorem natToBeAux_mono : ∀ (f1 n f2 : Nat), n ≤ f1 → n ≤ f2 →
    natToBeAux f1 n = natToBeAux f2 n := by
  intro f1
  induction f1 with
  | zero =>
    intro n f2 h1 _
    have hn : n = 0 := Nat.le_zero.mp h1
    subst hn
    cases f2 <;> simp [natToBeAux]
  | succ a ih =>
    intro n f2 h1 h2
    cases n with
    | zero => cases f2 <;> simp [natToBeAux]
    | succ m =>
      cases f2 with
      | zero => omega
      | succ f =>
        simp only [natToBeAux, if_neg (Nat.succ_ne_zero m)]
        have hd : (m + 1) / 256 ≤ m :=
          Nat.le_of_lt_succ (Nat.div_lt_self (Nat.succ_pos m) (by norm_num))
        rw [ih ((m + 1) / 256) f (le_trans hd (Nat.le_of_succ_le_succ h1))
          (le_trans hd (Nat.le_of_succ_le_succ h2))]

theorem natToBeMinimal_pos (n : Nat) (h : 0 < n) :
    natToBeMinimal n = natToBeMinimal (n / 256) ++ [n % 256] := by
  cases n with
  | zero => omega
  | succ m =>
    show natToBeAux (m + 1) (m + 1) = natToBeAux ((m + 1) / 256) ((m + 1) / 256) ++ [(m + 1) % 256]
    simp only [natToBeAux, if_neg (Nat.succ_ne_zero m)]
    have hd : (m + 1) / 256 ≤ m :=
      Nat.le_of_lt_succ (Nat.div_lt_self (Nat.succ_pos m) (by norm_num))
    rw [natToBeAux_mono m ((m + 1) / 256) ((m + 1) / 256) hd le_rfl]

theorem natToBeMinimal_head_pos : ∀ n : Nat, 0 < n →
    ∃ a t, natToBeMinimal n = a :: t ∧ a ≠ 0 := by
  intro n
  induction n using Nat.strong_induction_on with
  | _ n ih =>
    intro h
    rw [natToBeMinimal_pos n h]
    by_cases hq : n / 256 = 0
    · have hlt : n < 256 := by
        rcases Nat.lt_or_ge n 256 with h' | h'
        · exact h'
        · exact absurd hq (by have := Nat.div_le_div_right (c := 256) h'; simp at this; omega)
      rw [hq]
      refine ⟨n % 256, [], rfl, ?_⟩
      rw [Nat.mod_eq_of_lt hlt]
      omega
    · obtain ⟨a, t, he, ha⟩ := ih (n / 256) (Nat.div_lt_self h (by norm_num))
        (Nat.pos_of_ne_zero hq)
      exact ⟨a, t ++ [n % 256], by rw [he]; rfl, ha⟩

theorem strip_natToBeMinimal (n : Nat) :
    strip_leading_zeros (natToBeMinimal n) = natToBeMinimal n := by
  rcases Nat.eq_zero_or_pos n with h | h
  · subst h; rfl
  · obtain ⟨a, t, he, ha⟩ := natToBeMinimal_head_pos n h
    rw [he]
    simp [strip_leading_zeros, List.dropWhile_cons, ha]

theorem to_be_bytes_fixed_zero (w : Nat) : to_be_bytes_fixed w 0 = List.replicate w 0 := by
  induction w with
  | zero => rfl
  | succ w ih =>
    show to_be_bytes_fixed w (0 / 256) ++ [0 % 256] = List.replicate (w + 1) 0
    rw [Nat.zero_div, ih, List.replicate_succ']

theorem dropWhile_append_of_ne_nil {p : Nat → Bool}
    (xs ys : List Nat) (h : List.dropWhile p xs ≠ []) :
    List.dropWhile p (xs ++ ys) = List.dropWhile p xs ++ ys := by
  rw [List.dropWhile_append, if_neg (by simpa [List.isEmpty_iff] using h)]

theorem dropWhile_zero_replicate_append (w : Nat) (l : List Nat) :
    List.dropWhile (· == 0) (List.replicate w 0 ++ l) = List.dropWhile (· == 0) l := by
  induction w with
  | zero => rfl
  | succ w ih =>
    rw [List.replicate_succ, List.cons_append, List.dropWhile_cons_of_pos (by simp)]
    exact ih

theorem strip_to_be_bytes_fixed : ∀ (w n : Nat), n < 256 ^ w →
    strip_leading_zeros (to_be_bytes_fixed w n) = natToBeMinimal n := by
  intro w
  induction w with
  | zero =>
    intro n h
    have hn : n = 0 := by simpa using h
    subst hn
    rfl
  | succ w ih =>
    intro n h
    show strip_leading_zeros (to_be_bytes_fixed w (n / 256) ++ [n % 256]) = natToBeMinimal n
    by_cases hn : n = 0
    · subst hn
      rw [Nat.zero_div, to_be_bytes_fixed_zero]
      show List.dropWhile (· == 0) (List.replicate w 0 ++ [0 % 256]) = natToBeMinimal 0
      rw [dropWhile_zero_replicate_append]
      rfl
    · have hpos : 0 < n := Nat.pos_of_ne_zero hn
      by_cases hq : n / 256 = 0
      · have hlt : n < 256 := by
          rcases Nat.lt_or_ge n 256 with h' | h'
          · exact h'
          · exact absurd hq
              (by have := Nat.div_le_div_right (c := 256) h'; simp at this; omega)
        rw [hq, to_be_bytes_fixed_zero]
        show List.dropWhile (· == 0) (List.replicate w 0 ++ [n % 256]) = natToBeMinimal n
        rw [dropWhile_zero_replicate_append, natToBeMinimal_pos n hpos, hq]
        have : (n % 256 == 0) = false := by
          rw [Nat.mod_eq_of_lt hlt]
          simpa using hn
        simp [List.dropWhile, this]
        rfl
      · have hq8 : n / 256 < 256 ^ w := by
          rw [pow_succ, Nat.mul_comm] at h
          exact Nat.div_lt_of_lt_mul h
        have ihq := ih (n / 256) hq8
        obtain ⟨a, t, he, ha⟩ := natToBeMinimal_head_pos (n / 256) (Nat.pos_of_ne_zero hq)
        show List.dropWhile (· == 0) (to_be_bytes_fixed w (n / 256) ++ [n % 256]) = natToBeMinimal n
        rw [dropWhile_append_of_ne_nil]
        · show strip_leading_zeros (to_be_bytes_fixed w (n / 256)) ++ [n % 256] = natToBeMinimal n
          rw [ihq, natToBeMinimal_pos n hpos]
        · show strip_leading_zeros (to_be_bytes_fixed w (n / 256)) ≠ []
          rw [ihq, he]
          simp

theorem strip_usize_to_be_bytes (n : Nat) (h64 : n < 2 ^ 64) :
    strip_leading_zeros (usize_to_be_bytes n) = natToBeMinimal n := by
  have h8 : n < 256 ^ 8 := by
    have : (2 : Nat) ^ 64 = 256 ^ 8 := by norm_num
    omega
  exact strip_to_be_bytes_fixed 8 n h8

theorem encode_bytes_eq (b : List Nat) (h64 : b.length < 2 ^ 64) :
    encode_bytes b =
      if b.length = 1 ∧ b.headI < 128 then b
      else if b.length < 56 then (128 + b.length) :: b
      else (183 + (natToBeMinimal b.length).length) :: (natToBeMinimal b.length ++ b) := by
  simp only [encode_bytes]
  rw [strip_usize_to_be_bytes b.length h64]

theorem encode_sequence_eq (l : List Nat) (h64 : l.length < 2 ^ 64) :
    encode_sequence l =
      if l.length < 56 then (192 + l.length) :: l
      else (247 + (natToBeMinimal l.length).length) :: (natToBeMinimal l.length ++ l) := by
  simp only [encode_sequence]
  rw [strip_usize_to_be_bytes l.length h64]

theorem encode_bytes_suffix (b : List Nat) : ∃ p, encode_bytes b = p ++ b := by
  simp only [encode_bytes]
  split
  · exact ⟨[], rfl⟩
  split
  · exact ⟨[128 + b.length], rfl⟩
  · exact ⟨(183 + (strip_leading_zeros (usize_to_be_bytes b.length)).length) ::
      strip_leading_zeros (usize_to_be_bytes b.length), rfl⟩

theorem encode_sequence_suffix (l : List Nat) : ∃ p, encode_sequence l = p ++ l := by
  simp only [encode_sequence]
  split
  · exact ⟨[192 + l.length], rfl⟩
  · exact ⟨(247 + (strip_leading_zeros (usize_to_be_bytes l.length)).length) ::
      strip_leading_zeros (usize_to_be_bytes l.length), rfl⟩

theorem encode_internal_node_eq {V : Type} (encV : V → List Nat) (node : InternalNode V) :
    encode_internal_node encV node =
      if (node_rlp encV node).length < 32 then node_rlp encV node
      else keccak256 (node_rlp encV node) := by
  cases node <;> rfl

theorem empty_root_hash : keccak256 (encode_bytes []) = EMPTY_TRIE_ROOT := by decide

/-! ## Claims -/

/-- C2: for every byte string `b`, `encode_bytes b` is `b` itself when `b` is
a single byte below 0x80; otherwise the prefix byte `0x80 + len(b)` followed
by `b` when `len(b) < 56`; otherwise the prefix byte `0xB7 + len(be)`
followed by `be` (the big-endian minimal encoding of `len(b)`) followed by
`b`. -/
theorem c2_encode_bytes_cases (b : List Nat) (h64 : b.length < 2 ^ 64) :
    encode_bytes b =
      if b.length = 1 ∧ b.headI < 128 then b
      else if b.length < 56 then (128 + b.length) :: b
      else (183 + (natToBeMinimal b.length).length) :: (natToBeMinimal b.length ++ b) :=
  encode_bytes_eq b h64

/-- Witness for C2 at a 60-byte input, exercising the long-string branch. -/
theorem c2_encode_bytes_witness :
    (List.replicate 60 (7 : Nat)).length < 2 ^ 64 ∧
    encode_bytes (List.replicate 60 7) = 184 :: 60 :: List.replicate 60 7 := by
  refine ⟨by decide, ?_⟩
  rw [c2_encode_bytes_cases (List.replicate 60 7) (by decide)]
  decide

/-- C8 counterexample: the claimed length formula fails on the single byte
`[0]`, whose encoding is itself (length 1, not 2). -/
theorem c8_length_counterexample :
    ¬ ((encode_bytes [0]).length = ([0] : List Nat).length + 1) := by decide

/-- C8 (amended): `encode_bytes b` has length `len(b) + 1` when
`len(b) < 56` and `len(b) + 1 + len(be(len(b)))` otherwise — except when `b`
is a single byte below 0x80, where the encoding is `b` itself and the length
is 1. -/
theorem c8_encode_bytes_length (b : List Nat) (h64 : b.length < 2 ^ 64) :
    (encode_bytes b).length =
      if b.length = 1 ∧ b.headI < 128 then 1
      else if b.length < 56 then b.length + 1
      else b.length + 1 + (natToBeMinimal b.length).length := by
  rw [encode_bytes_eq b h64]
  split
  · rename_i h
    simp [h.1]
  split
  · simp
  · simp only [List.length_cons, List.length_append]
    omega

/-- Witness for C8 at a short and a long input. -/
theorem c8_encode_bytes_length_witness :
    (encode_bytes [0, 1, 2]).length = 4 ∧
    (encode_bytes (List.replicate 60 (7 : Nat))).length = 62 := by
  constructor
  · rw [c8_encode_bytes_length [0, 1, 2] (by decide)]
    decide
  · rw [c8_encode_bytes_length (List.replicate 60 7) (by decide)]
    decide

/-- C7: `encode` of an unsigned integer `n` is the byte-string encoding of
the minimal big-endian representation of `n` (leading zeros stripped, zero
giving the empty byte string); in particular `encode 0 = [0x80]`,
`encode 15 = [0x0F]`, `encode 1024 = [0x82, 0x04, 0x00]`. -/
theorem c7_uint_encode (n : Nat) :
    uint_encode n = encode_bytes (natToBeMinimal n) ∧
    natToBeMinimal 0 = [] ∧
    uint_encode 0 = [0x80] ∧ uint_encode 15 = [0x0F] ∧
    uint_encode 1024 = [0x82, 0x04, 0x00] := by
  refine ⟨?_, rfl, by decide, by decide, by decide⟩
  by_cases hn : n = 0
  · subst hn; rfl
  · show encode_bytes (strip_leading_zeros (uint_to_bytes_be n)) = _
    rw [uint_to_bytes_be, if_neg hn, strip_natToBeMinimal]

/-- C3: `encode` of a sequence concatenates the recursive encodings of the
items and applies the byte-string length rule with bases 0xC0 (192) and 0xF7
(247) to the joined encoding; the empty sequence and the empty tuple encode
as the single byte 0xC0. -/
theorem c3_rlp_encode_list (items : List RLPItem)
    (h64 : (joined_encodings items).length < 2 ^ 64) :
    rlp_encode (RLPItem.list items) =
      (if (joined_encodings items).length < 56 then
        (192 + (joined_encodings items).length) :: joined_encodings items
      else
        (247 + (natToBeMinimal (joined_encodings items).length).length) ::
          (natToBeMinimal (joined_encodings items).length ++ joined_encodings items)) ∧
    joined_encodings items = (items.map rlp_encode).flatten ∧
    rlp_encode (RLPItem.list []) = [0xC0] ∧
    unit_encode = [0xC0] := by
  refine ⟨?_, ?_, by decide, by decide⟩
  · show encode_sequence (joined_encodings items) = _
    rw [encode_sequence_eq _ h64]
  · clear h64
    induction items with
    | nil => rfl
    | cons item rest ih => simp [joined_encodings, ih]

/-- Witness for C3 at the two-item sequence encoding of "cat"/"dog". -/
theorem c3_rlp_encode_list_witness :
    (joined_encodings [RLPItem.bytes [99, 97, 116], RLPItem.bytes [100, 111, 103]]).length
      < 2 ^ 64 ∧
    rlp_encode (RLPItem.list [RLPItem.bytes [99, 97, 116], RLPItem.bytes [100, 111, 103]]) =
      [0xC8, 0x83, 99, 97, 116, 0x83, 100, 111, 103] := by
  refine ⟨by decide, ?_⟩
  rw [(c3_rlp_encode_list [RLPItem.bytes [99, 97, 116], RLPItem.bytes [100, 111, 103]]
    (by decide)).1]
  decide

/-- C1: `encode_internal_node` first forms the node's RLP bytes
(`encode_sequence` of its joined field encodings); below 32 bytes it returns
those raw RLP bytes, which the parent embeds unmodified (they appear intact,
as the suffix of the child's reference, inside the parent's RLP bytes); at 32
bytes or more the node is replaced by the 32-byte keccak256 digest of its RLP
bytes; a node whose RLP bytes measure exactly 31 appears inline and one with
exactly 32 appears as its hash. -/
theorem c1_encode_internal_node_threshold {V : Type} (encV : V → List Nat)
    (k : List Nat) (node : InternalNode V) :
    encode_internal_node encV node =
      (if (node_rlp encV node).length < 32 then node_rlp encV node
       else keccak256 (node_rlp encV node)) ∧
    ((node_rlp encV node).length = 31 → encode_internal_node encV node = node_rlp encV node) ∧
    ((node_rlp encV node).length = 32 →
      encode_internal_node encV node = keccak256 (node_rlp encV node) ∧
        (encode_internal_node encV node).length = 32) ∧
    ∃ pre, node_rlp encV (InternalNode.extensionNode k node) =
      pre ++ encode_internal_node encV node := by
  have ht := encode_internal_node_eq encV node
  refine ⟨ht, ?_, ?_, ?_⟩
  · intro h31
    rw [ht, if_pos (by omega)]
  · intro h32
    have he : encode_internal_node encV node = keccak256 (node_rlp encV node) := by
      rw [ht, if_neg (by omega)]
    exact ⟨he, by rw [he, keccak256_length]⟩
  · obtain ⟨p1, hp1⟩ := encode_sequence_suffix (node_encodes encV (.extensionNode k node))
    obtain ⟨p2, hp2⟩ := encode_bytes_suffix (encode_internal_node encV node)
    refine ⟨p1 ++ encode_bytes (nibble_list_to_compact k false) ++ p2, ?_⟩
    have hleft : node_rlp encV (.extensionNode k node) =
        p1 ++ (encode_bytes (nibble_list_to_compact k false) ++
          encode_bytes (encode_internal_node encV node)) := hp1
    rw [hleft, hp2]
    simp [List.append_assoc]

/-- Witness for C1: a leaf whose RLP bytes measure exactly 31 is returned
raw, and one measuring exactly 32 is returned as its digest. -/
theorem c1_threshold_witness :
    (node_rlp encode_bytes (InternalNode.leafNode [] (List.replicate 28 7))).length = 31 ∧
    encode_internal_node encode_bytes (InternalNode.leafNode [] (List.replicate 28 7)) =
      node_rlp encode_bytes (InternalNode.leafNode [] (List.replicate 28 7)) ∧
    (node_rlp encode_bytes (InternalNode.leafNode [] (List.replicate 29 7))).length = 32 ∧
    encode_internal_node encode_bytes (InternalNode.leafNode [] (List.replicate 29 7)) =
      keccak256 (node_rlp encode_bytes (InternalNode.leafNode [] (List.replicate 29 7))) := by
  refine ⟨by decide, ?_, by decide, ?_⟩
  · exact (c1_encode_internal_node_threshold encode_bytes [] _).2.1 (by decide)
  · exact ((c1_encode_internal_node_threshold encode_bytes [] _).2.2.1 (by decide)).1

/-- C10: the byte string `encode_internal_node` returns is either strictly
shorter than 32 bytes (the node's own RLP bytes, unchanged) or exactly 32
bytes long (a keccak256 digest); it is never longer than 32 bytes. -/
theorem c10_encode_internal_node_bounded {V : Type} (encV : V → List Nat)
    (node : InternalNode V) :
    ((encode_internal_node encV node).length < 32 ∧
      encode_internal_node encV node = node_rlp encV node) ∨
    ((encode_internal_node encV node).length = 32 ∧
      encode_internal_node encV node = keccak256 (node_rlp encV node)) := by
  have ht := encode_internal_node_eq encV node
  by_cases h : (node_rlp encV node).length < 32
  · rw [ht, if_pos h]
    exact Or.inl ⟨h, rfl⟩
  · rw [ht, if_neg h]
    exact Or.inr ⟨keccak256_length _, rfl⟩

/-- C4 fails on the code: for the odd-length nibble list `[0]` with
`is_leaf = false`, the Rust `16 * 2 * is_leaf as u8 + 1 + x[0]` produces the
byte 0x01 — its high nibble is 0, so the parity bit (bit 0 of the flag
nibble) is 0 although the nibble count 1 is odd, and the low nibble is 1, not
the first data nibble 0. The function's own doc comment (and the Python
reference it ports, `16 * (2 * is_leaf + 1) + x[0]`) requires 0x10. -/
theorem c4_nibble_compact_flag_bug :
    nibble_list_to_compact [0] false = [1] ∧
    (nibble_list_to_compact [0] false).headI / 16 % 2 = 0 ∧
    ([0] : List Nat).length % 2 = 1 ∧
    (nibble_list_to_compact [0] false).headI % 16 ≠ ([0] : List Nat).headI := by
  decide

/-- C5 fails on the code: `encode_internal_node` on `Null` also wraps the
encoded empty byte string in `encode_sequence`, returning `[0xC1, 0x80]`
rather than the RLP encoding `[0x80]` of the empty byte string that its doc
comment (and the ported Python, and the `EMPTY_TRIE_ROOT` constant) demand. -/
theorem c5_null_encoding_bug :
    encode_internal_node (fun v : List Nat => encode_bytes v) InternalNode.null =
      [0xC1, 0x80] ∧
    encode_bytes [] = [0x80] ∧
    ([0xC1, 0x80] : List Nat) ≠ [0x80] := by
  decide

/-- C9 fails on the code: because `nibble_list_to_compact` places the parity
flag at bit 0 of the first byte instead of bit 4, the spec's `uncompact`
cannot recover odd-length inputs: `compact([0], false) = [0x01]`, whose high
nibble says even-length extension, so `uncompact` returns `([], false)`, not
`([0], false)`. -/
theorem c9_compact_roundtrip_bug :
    uncompact (nibble_list_to_compact [0] false) = ([], false) ∧
    (([], false) : List Nat × Bool) ≠ ([0], false) := by
  decide

/-- C6: the empty-trie root constant `EMPTY_TRIE_ROOT` equals the keccak256
digest of the RLP encoding of the empty byte string (keccak256 of `[0x80]`),
and the root of a trie all of whose entries hold the default value equals
this constant for either value of the `secured` flag. -/
theorem c6_empty_trie_root :
    EMPTY_TRIE_ROOT = keccak256 (encode_bytes []) ∧
    ∀ (data : List (List Nat × List Nat)) (secured : Bool) (dflt : List Nat),
      (∀ kv ∈ data, kv.2 = dflt) → root data secured dflt = EMPTY_TRIE_ROOT := by
  refine ⟨empty_root_hash.symm, ?_⟩
  intro data secured dflt h
  have hf : data.filter (fun kv => kv.2 != dflt) = [] := by
    rw [List.filter_eq_nil_iff]
    intro kv hkv
    simp [h kv hkv]
  unfold root
  rw [hf]
  exact empty_root_hash

/-- Witness for C6: one all-default singleton trie (secured) and the empty
trie (unsecured) both give the empty root. -/
theorem c6_empty_trie_root_witness :
    root [([1], [2])] true [2] = EMPTY_TRIE_ROOT ∧
    root [] false [] = EMPTY_TRIE_ROOT := by
  refine ⟨c6_empty_trie_root.2 _ _ _ ?_, c6_empty_trie_root.2 _ _ _ ?_⟩ <;> decide
